import Mathlib

/-!
Verification of the bounded mail store of node-smtp-sink.

The definitions below are a shallow embedding of the two source variants:
* `src/src/index.ts` — the TypeScript sink: `createRingBuffer` (push / toArray /
  clear / remove), the `onChange → broadcast` notifier, and the time+random id
  scheme of `onData`;
* `src/index.js` — the legacy JavaScript sink: the `mails` array with
  `emailIdCounter`, the `GET /emails` filter and pagination chain, and the
  `DELETE` handlers.

JS strings are modelled as `String` (TS records) or `List Char` (JS records,
where substring search matters); JS arrays as `List`; machine numbers as `Nat`
(all counts and indices in scope are non-negative and far from 2^53).
-/

namespace SmtpSink

/-- A parsed mail, `MailRecord` of `src/src/index.ts` (field `from` is a Lean
keyword, written `«from»`). -/
structure MailRecord where
  id : String
  «to» : List String
  «from» : String
  subject : Option String
  text : Option String
  html : Option String
  date : String
  headers : List (String × String)
  deriving DecidableEq

/-- The eviction loop of `createRingBuffer.push` (and of the `index.js`
message handler): `while (arr.length > max) arr.splice(0, 1)`. -/
def trimFifo {α : Type} (max : Nat) (arr : List α) : List α :=
  if h : arr.length > max then trimFifo max (arr.drop 1) else arr
termination_by arr.length
decreasing_by
  simp only [List.length_drop]
  omega

/-- Model of `createRingBuffer.push`: `arr.push(item)` then the eviction loop. -/
def rbPush {α : Type} (max : Nat) (arr : List α) (item : α) : List α :=
  trimFifo max (arr ++ [item])

/-- Runs `n` consecutive pushes into a fresh ring buffer (`let arr: T[] = []`). -/
def pushAll {α : Type} (max : Nat) (recs : List α) : List α :=
  recs.foldl (rbPush max) []

/-- Model of `createRingBuffer.remove`: `findIndex` on the id, then `splice(idx, 1)`
returning `true`, or `false` when `findIndex` yields `-1`. -/
def removeById (arr : List MailRecord) (i : String) : Bool × List MailRecord :=
  match arr.findIdx? (fun item => item.id == i) with
  | some idx => (true, arr.eraseIdx idx)
  | none => (false, arr)

/-- State of the notifier-variant store: the ring buffer array plus the log of
`broadcast('emails', store.toArray())` payloads emitted by `onChange`. -/
structure Sink where
  arr : List MailRecord
  events : List (String × List MailRecord)
  deriving DecidableEq

/-- The initial store: `let arr: T[] = []`, nothing broadcast yet. -/
def emptySink : Sink := ⟨[], []⟩

/-- Model of `push` in the notifier variant: append, evict, then `onChange?.()`, which
broadcasts the post-mutation `toArray()` tagged `'emails'`. -/
def sinkPush (max : Nat) (s : Sink) (item : MailRecord) : Sink :=
  let arr := rbPush max s.arr item
  ⟨arr, s.events ++ [("emails", arr)]⟩

/-- Model of `clear` in the notifier variant: `arr = []` then `onChange?.()`. -/
def sinkClear (s : Sink) : Sink :=
  ⟨[], s.events ++ [("emails", [])]⟩

/-- Model of `remove` in the notifier variant: on a hit, splice then `onChange?.()` and
return `true`; on a miss return `false` with no notification. -/
def sinkRemove (s : Sink) (i : String) : Bool × Sink :=
  match s.arr.findIdx? (fun item => item.id == i) with
  | some idx =>
      (true, ⟨s.arr.eraseIdx idx, s.events ++ [("emails", s.arr.eraseIdx idx)]⟩)
  | none => (false, s)

/-- A WebSocket subscriber: `ready` models `readyState === WebSocket.OPEN`. -/
structure WsClient where
  label : Nat
  ready : Bool
  deriving DecidableEq

/-- Model of `broadcast(event, data)`: the `JSON.stringify({event, data})` message is
sent to exactly the clients whose `readyState` is `OPEN`. -/
def broadcast (clients : List WsClient) (event : String) (data : List MailRecord) :
    List (WsClient × String × List MailRecord) :=
  (clients.filter (fun c => c.ready)).map (fun c => (c, event, data))

/-- A mail of `index.js` (counter id scheme); fields not inspected by the
store, query, or delete paths (`cc`, `bcc`, `html`, `date`, `messageId`,
`inReplyTo`, `references`, `headers`, `attachments`) are omitted. -/
structure JsMail where
  id : Nat
  «from» : List Char
  «to» : List Char
  subject : List Char
  text : List Char
  raw : List Char
  deriving DecidableEq

/-- Model of `s.toLowerCase()`. -/
def strLower (s : List Char) : List Char := s.map Char.toLower

/-- Model of `hay.includes(needle)`: some suffix of `hay` starts with `needle`. -/
def containsSub (hay needle : List Char) : Bool :=
  (List.range (hay.length + 1)).any (fun i => needle.isPrefixOf (hay.drop i))

/-- One `if (query.x) filteredMails = filteredMails.filter(...)` stage of the
`GET /emails` handler; an absent or empty (falsy) parameter skips the stage. -/
def applyFilter (q : Option (List Char)) (field : JsMail → List Char)
    (mails : List JsMail) : List JsMail :=
  match q with
  | none => mails
  | some qs =>
      if qs.isEmpty then mails
      else mails.filter (fun m => containsSub (strLower (field m)) (strLower qs))

/-- The `GET /emails` filter chain: `from`, then `to`, then `subject`. -/
def filterEmails (mails : List JsMail) (qfrom qto qsubject : Option (List Char)) :
    List JsMail :=
  applyFilter qsubject (fun m => m.subject)
    (applyFilter qto (fun m => m.«to»)
      (applyFilter qfrom (fun m => m.«from») mails))

/-- The JSON envelope `{total, limit, offset, emails}` of `GET /emails`. -/
structure PageResult where
  total : Nat
  limit : Nat
  offset : Nat
  emails : List JsMail
  deriving DecidableEq

/-- Pagination of `GET /emails`:
`limit = parseInt(query.limit) || filteredMails.length` (so `0` and absent both
fall back to the filtered length), `offset = parseInt(query.offset) || 0`, and
`filteredMails.slice(offset, offset + limit)`. Query parameters are modelled as
`Option Nat` (the claims range over non-negative integers or absence). -/
def paginate (filtered : List JsMail) (qlimit qoffset : Option Nat) : PageResult :=
  let limit := match qlimit with
    | some l => if l = 0 then filtered.length else l
    | none => filtered.length
  let offset := match qoffset with
    | some o => o
    | none => 0
  { total := filtered.length
    limit := limit
    offset := offset
    emails := (filtered.drop offset).take limit }

/-- The whole `GET /emails` read path: filter, then paginate. -/
def listEmails (mails : List JsMail) (qfrom qto qsubject : Option (List Char))
    (qlimit qoffset : Option Nat) : PageResult :=
  paginate (filterEmails mails qfrom qto qsubject) qlimit qoffset

/-- Model of `DELETE /emails` in `index.js`: reply with the pre-clear count, then
`mails.length = 0`. -/
def clearEndpoint (mails : List JsMail) : Nat × List JsMail :=
  (mails.length, [])

/-- The claim-level matching notion: `needle` occurs in `field` as a
case-insensitive substring. -/
def ciSubstring (needle field : List Char) : Prop :=
  ∃ pre post, strLower field = pre ++ strLower needle ++ post

/-- A supplied criterion must match; an absent criterion imposes nothing. -/
def matchesCrit (q : Option (List Char)) (field : List Char) : Prop :=
  ∀ s, q = some s → ciSubstring s field

/-- Content of a mail before `index.js` assigns `id: emailIdCounter++`. -/
structure JsDraft where
  «from» : List Char
  «to» : List Char
  subject : List Char
  text : List Char
  raw : List Char
  deriving DecidableEq

/-- Process state of `index.js`: the module-level `emailIdCounter` and the
`mails` array. -/
structure JsState where
  counter : Nat
  mails : List JsMail
  deriving DecidableEq

/-- The operations of a process lifetime of `index.js`: an accepted message
(the `stream.on('end')` handler), `DELETE /emails/:id`, `DELETE /emails`. -/
inductive JsOp where
  | ins (d : JsDraft)
  | del (i : Nat)
  | clr
  deriving DecidableEq

/-- Model of `DELETE /emails/:id` in `index.js`: `findIndex` on the id, then
`splice(index, 1)` (returning the deleted mail), or a not-found outcome. -/
def deleteEmail (mails : List JsMail) (i : Nat) : Option JsMail × List JsMail :=
  match mails.findIdx? (fun m => m.id == i) with
  | some idx => (mails[idx]?, mails.eraseIdx idx)
  | none => (none, mails)

/-- One step of the `index.js` process, also yielding the ids assigned by the
step. An insertion builds the record with `id: emailIdCounter++`, pushes it
and runs the trim loop; deletion and clear never touch the counter. -/
def jsStep (max : Nat) (s : JsState) : JsOp → JsState × List Nat
  | .ins d =>
      (⟨s.counter + 1,
        trimFifo max (s.mails ++ [⟨s.counter, d.«from», d.«to», d.subject, d.text, d.raw⟩])⟩,
       [s.counter])
  | .del i => (⟨s.counter, (deleteEmail s.mails i).2⟩, [])
  | .clr => (⟨s.counter, []⟩, [])

/-- Run a whole process lifetime, collecting every id ever assigned. -/
def jsRun (max : Nat) (s : JsState) : List JsOp → JsState × List Nat
  | [] => (s, [])
  | op :: ops =>
      let s1 := jsStep max s op
      let s2 := jsRun max s1.1 ops
      (s2.1, s1.2 ++ s2.2)

/-- Number of insertions in a lifetime. -/
def countIns : List JsOp → Nat
  | [] => 0
  | .ins _ :: ops => countIns ops + 1
  | .del _ :: ops => countIns ops
  | .clr :: ops => countIns ops

/-- One decimal digit as a character, as JS number-to-string conversion emits
it. -/
def digitChar (d : Nat) : Char := Char.ofNat (48 + d)

/-- JS decimal rendering of a non-negative integer (`String(n)`,
`` `${n}` ``). -/
def natDecimal (n : Nat) : List Char :=
  if n = 0 then ['0'] else ((Nat.digits 10 n).map digitChar).reverse

/-- The id scheme of `onData` in `src/src/index.ts`:
`` `${Date.now()}-${Math.random().toString(36).slice(2)}` ``, with the clock
reading and the drawn random token as explicit inputs. -/
def mkTimeId (now : Nat) (token : List Char) : List Char :=
  natDecimal now ++ '-' :: token

/-- Heap model for the aliasing behaviour of `toArray()`: each JS array is a
cell; `arrRef` is the array the `arr` variable of `createRingBuffer` currently
denotes. -/
structure JsHeap where
  cells : List (List MailRecord)
  arrRef : Nat
  deriving DecidableEq

/-- The contents of the store's current array. -/
def curArr (h : JsHeap) : List MailRecord := h.cells.getD h.arrRef []

/-- The mutations of the ring buffer. -/
inductive MutOp where
  | pushOp (max : Nat) (r : MailRecord)
  | removeOp (i : String)
  | clearOp
  deriving DecidableEq

/-- Heap semantics of the mutations: `push` and `remove` mutate the current
array in place (`arr.push`, `arr.splice`); `clear` rebinds `arr` to a fresh
empty array (`arr = []`). -/
def applyMut (h : JsHeap) : MutOp → JsHeap
  | .pushOp max r => ⟨h.cells.set h.arrRef (rbPush max (curArr h) r), h.arrRef⟩
  | .removeOp i => ⟨h.cells.set h.arrRef (removeById (curArr h) i).2, h.arrRef⟩
  | .clearOp => ⟨h.cells ++ [[]], h.cells.length⟩

/-- Run a sequence of mutations. -/
def runMut (h : JsHeap) : List MutOp → JsHeap
  | [] => h
  | op :: ops => runMut (applyMut h op) ops

/-- Model of `toArray()`: `[...arr]` allocates a fresh array holding a copy of the
current contents; its address is returned. -/
def heapSnapshot (h : JsHeap) : JsHeap × Nat :=
  (⟨h.cells ++ [curArr h], h.arrRef⟩, h.cells.length)

/-- A fresh store heap: one empty array, bound to `arr`. -/
def emptyHeap : JsHeap := ⟨[[]], 0⟩

/-- Sample TS record for witnesses. -/
def mr (i : String) : MailRecord :=
  ⟨i, ["b@x"], "a@x", some "s", none, none, "d", []⟩

/-- Sample JS mail for witnesses. -/
def jm (n : Nat) (subj : List Char) : JsMail :=
  ⟨n, ['a'], ['b'], subj, [], []⟩

/-- A concrete three-element filtered list for witnesses. -/
def pg3 : List JsMail :=
  [jm 0 ['E', 'm', 'a', 'i', 'l', ' ', '1'],
   jm 1 ['E', 'm', 'a', 'i', 'l', ' ', '2'],
   jm 2 ['E', 'm', 'a', 'i', 'l', ' ', '3']]

/-- A subject substring occurring in no sample record. -/
def zzz : List Char := ['z', 'z', 'z']

theorem trimFifo_eq_drop {α : Type} (max : Nat) :
    ∀ arr : List α, trimFifo max arr = arr.drop (arr.length - max) := by
  intro arr
  induction arr with
  | nil => simp [trimFifo]
  | cons a as ih =>
      rw [trimFifo]
      by_cases hgt : (a :: as).length > max
      · rw [dif_pos hgt, show (a :: as).drop 1 = as from rfl, ih]
        have hk : (a :: as).length - max = (as.length - max) + 1 := by
          simp only [List.length_cons] at hgt ⊢
          omega
        rw [hk, List.drop_succ_cons]
      · rw [dif_neg hgt]
        have : (a :: as).length - max = 0 := by omega
        rw [this, List.drop_zero]

theorem length_trimFifo {α : Type} (max : Nat) (arr : List α) :
    (trimFifo max arr).length = min arr.length max := by
  rw [trimFifo_eq_drop, List.length_drop]
  omega

theorem rbPush_eq_drop {α : Type} (max : Nat) (arr : List α) (r : α) :
    rbPush max arr r = (arr ++ [r]).drop (arr.length + 1 - max) := by
  rw [rbPush, trimFifo_eq_drop]
  simp

theorem length_rbPush {α : Type} (max : Nat) (arr : List α) (r : α) :
    (rbPush max arr r).length = min (arr.length + 1) max := by
  rw [rbPush, length_trimFifo]
  simp

theorem foldl_rbPush_eq_drop {α : Type} (max : Nat) :
    ∀ (recs arr : List α), arr.length ≤ max →
      recs.foldl (rbPush max) arr = (arr ++ recs).drop (arr.length + recs.length - max) := by
  intro recs
  induction recs with
  | nil =>
      intro arr harr
      simp only [List.foldl_nil, List.append_nil, List.length_nil, Nat.add_zero]
      have : arr.length - max = 0 := by omega
      rw [this, List.drop_zero]
  | cons r rs ih =>
      intro arr harr
      rw [List.foldl_cons]
      have harr' : (rbPush max arr r).length ≤ max := by
        rw [length_rbPush]; omega
      rw [ih (rbPush max arr r) harr', rbPush_eq_drop]
      have hle : arr.length + 1 - max ≤ (arr ++ [r]).length := by
        simp
      have hshape : (arr ++ [r]).drop (arr.length + 1 - max) ++ rs
          = ((arr ++ [r]) ++ rs).drop (arr.length + 1 - max) :=
        (List.drop_append_of_le_length hle).symm
      rw [hshape, List.drop_drop, List.append_assoc, List.singleton_append]
      congr 1
      simp only [List.length_drop, List.length_append, List.length_cons,
        List.length_singleton, List.length_nil]
      omega

theorem pushAll_eq_drop {α : Type} (max : Nat) (recs : List α) :
    pushAll max recs = recs.drop (recs.length - max) := by
  rw [pushAll, foldl_rbPush_eq_drop max recs [] (by simp)]
  simp

/-- C1. Pushing `n` records into a fresh ring buffer of capacity `max ≥ 1`
retains exactly the last `min n max` of them, in push order, so `size()`
equals `min n max`; and a push into a full buffer evicts exactly the single
oldest record. -/
theorem ringBuffer_keeps_last_max {α : Type} (max : Nat) (hmax : 1 ≤ max)
    (recs : List α) :
    (pushAll max recs).length = min recs.length max
    ∧ pushAll max recs = recs.drop (recs.length - max)
    ∧ (∀ (arr : List α) (r : α), arr.length = max →
        rbPush max arr r = arr.tail ++ [r]) := by
  refine ⟨?_, pushAll_eq_drop max recs, ?_⟩
  · rw [pushAll_eq_drop, List.length_drop]
    omega
  · intro arr r harr
    rw [rbPush_eq_drop, harr]
    have h1 : max + 1 - max = 1 := by omega
    rw [h1]
    have hne : 1 ≤ arr.length := by omega
    rw [List.drop_append_of_le_length hne, List.drop_one]

/-- C1 witness: the spec's own example — capacity 3, five pushes, the buffer
holds exactly the last three, in order. -/
theorem ringBuffer_keeps_last_max_witness :
    (pushAll 3 [1, 2, 3, 4, 5]).length = min 5 3
    ∧ pushAll 3 [1, 2, 3, 4, 5] = [3, 4, 5] := by
  have h := ringBuffer_keeps_last_max 3 (by decide) [1, 2, 3, 4, 5]
  exact ⟨h.1, by rw [h.2.1]; rfl⟩

theorem findIdx_none_of_forall (arr : List MailRecord) (i : String)
    (h : ∀ r ∈ arr, r.id ≠ i) :
    arr.findIdx? (fun item => item.id == i) = none := by
  rw [List.findIdx?_eq_none_iff]
  intro x hx
  simpa using h x hx

theorem findIdx_spec_of_exists (arr : List MailRecord) (i : String)
    (h : ∃ r ∈ arr, r.id = i) :
    ∃ idx, ∃ hidx : idx < arr.length,
      arr.findIdx? (fun item => item.id == i) = some idx
      ∧ (arr.get ⟨idx, hidx⟩).id = i
      ∧ ∀ j, (hj : j < arr.length) → j < idx → (arr.get ⟨j, hj⟩).id ≠ i := by
  cases hfi : arr.findIdx? (fun item => item.id == i) with
  | none =>
      rw [List.findIdx?_eq_none_iff] at hfi
      obtain ⟨r, hr, hid⟩ := h
      have := hfi r hr
      simp [hid] at this
  | some idx =>
      obtain ⟨hlt, hp, hmin⟩ := List.findIdx?_eq_some_iff_getElem.mp hfi
      refine ⟨idx, hlt, rfl, by simpa using hp, ?_⟩
      intro j hj hji
      have := hmin j hji
      simpa using this

/-- C3. `remove(id)` on a store containing a record with that id returns
`true`, shrinks the store by exactly one, keeps the remaining records in their
original relative order (a sublist), deletes exactly the (first) record with
that id, and retains every record with a different id; on a store containing
no such record it returns `false` and leaves the whole list unchanged. -/
theorem remove_spec (arr : List MailRecord) (i : String) :
    ((∃ r ∈ arr, r.id = i) →
       (removeById arr i).1 = true
       ∧ ((removeById arr i).2).length + 1 = arr.length
       ∧ List.Sublist ((removeById arr i).2) arr
       ∧ (∃ idx, ∃ hidx : idx < arr.length,
            (arr.get ⟨idx, hidx⟩).id = i
            ∧ (∀ j, (hj : j < arr.length) → j < idx → (arr.get ⟨j, hj⟩).id ≠ i)
            ∧ (removeById arr i).2 = arr.take idx ++ arr.drop (idx + 1))
       ∧ (∀ r ∈ arr, r.id ≠ i → r ∈ (removeById arr i).2))
    ∧ ((∀ r ∈ arr, r.id ≠ i) → removeById arr i = (false, arr)) := by
  constructor
  · intro h
    obtain ⟨idx, hidx, hfi, hpid, hmin⟩ := findIdx_spec_of_exists arr i h
    have hrb : removeById arr i = (true, arr.eraseIdx idx) := by
      rw [removeById, hfi]
    rw [hrb]
    have herase : arr.eraseIdx idx = arr.take idx ++ arr.drop (idx + 1) :=
      List.eraseIdx_eq_take_drop_succ arr idx
    refine ⟨rfl, ?_, List.eraseIdx_sublist arr idx, ⟨idx, hidx, hpid, hmin, herase⟩, ?_⟩
    · rw [List.length_eraseIdx, if_pos hidx]
      omega
    · intro r hr hrid
      have hsplit : arr.take idx ++ arr.drop idx = arr := List.take_append_drop idx arr
      have hdrop : arr.drop idx = arr.get ⟨idx, hidx⟩ :: arr.drop (idx + 1) :=
        List.drop_eq_getElem_cons hidx
      rw [herase]
      rw [← hsplit, hdrop] at hr
      rcases List.mem_append.mp hr with hl | hrr
      · exact List.mem_append.mpr (Or.inl hl)
      · rcases List.mem_cons.mp hrr with heq | htl
        · exact absurd (heq ▸ hpid) hrid
        · exact List.mem_append.mpr (Or.inr htl)
  · intro h
    rw [removeById, findIdx_none_of_forall arr i h]

/-- C3 witness: removing a present id succeeds; removing an absent id returns
not-found and leaves the two-record store untouched. -/
theorem remove_spec_witness :
    (removeById [mr "a", mr "b"] "b").1 = true
    ∧ removeById [mr "a", mr "b"] "c" = (false, [mr "a", mr "b"]) :=
  ⟨((remove_spec [mr "a", mr "b"] "b").1 ⟨mr "b", by decide, rfl⟩).1,
   (remove_spec [mr "a", mr "b"] "c").2 (by decide)⟩

theorem take_drop_page (f : List JsMail) (o l : Nat) :
    ((f.drop o).take l).length = min l (f.length - o)
    ∧ (∀ i, i < ((f.drop o).take l).length → ((f.drop o).take l)[i]? = f[o + i]?)
    ∧ (f.length ≤ o → (f.drop o).take l = []) := by
  refine ⟨by simp, ?_, ?_⟩
  · intro i hi
    have hi' : i < (f.drop o).length := lt_of_lt_of_le hi (by simp)
    have hoi : o + i < f.length := by
      simp only [List.length_drop] at hi'
      omega
    rw [List.getElem?_eq_getElem hi, List.getElem?_eq_getElem hoi]
    rw [List.getElem_take, List.getElem_drop]
  · intro hle
    rw [List.drop_eq_nil_of_le hle, List.take_nil]

theorem paginate_emails_eq (filtered : List JsMail) (ql qo : Option Nat) :
    (paginate filtered ql qo).emails
      = (filtered.drop ((paginate filtered ql qo).offset)).take
          ((paginate filtered ql qo).limit) := rfl

/-- C4. Pagination of the filtered list: the response carries the unclipped
filtered total, the offset defaults to 0, the page is exactly the contiguous
slice `[offset, offset + limit)` clipped to the available range (element `i`
of the page is element `offset + i` of the filtered list, and the page length
is `min limit (total - offset)`), and an offset at or beyond the total yields
an empty page. -/
theorem paginate_spec (filtered : List JsMail) (ql qo : Option Nat) :
    (paginate filtered ql qo).total = filtered.length
    ∧ (paginate filtered ql qo).offset = qo.getD 0
    ∧ ((paginate filtered ql qo).emails).length
        = min (paginate filtered ql qo).limit
            (filtered.length - (paginate filtered ql qo).offset)
    ∧ (∀ i, i < ((paginate filtered ql qo).emails).length →
        ((paginate filtered ql qo).emails)[i]?
          = filtered[(paginate filtered ql qo).offset + i]?)
    ∧ (filtered.length ≤ (paginate filtered ql qo).offset →
        (paginate filtered ql qo).emails = [])
    ∧ (ql = none → (paginate filtered ql qo).limit = filtered.length) := by
  have h := take_drop_page filtered ((paginate filtered ql qo).offset)
    ((paginate filtered ql qo).limit)
  refine ⟨rfl, ?_, ?_, ?_, ?_, ?_⟩
  · cases qo <;> rfl
  · rw [paginate_emails_eq]
    exact h.1
  · intro i hi
    rw [paginate_emails_eq]
    exact h.2.1 i (by rw [paginate_emails_eq] at hi; exact hi)
  · intro hle
    rw [paginate_emails_eq]
    exact h.2.2 hle
  · rintro rfl
    rfl

/-- C4 witness: on a three-element list, offset 1 exposes element 1 of the
filtered list as page element 0, and offset 5 (beyond the total of 3) yields
an empty page. -/
theorem paginate_spec_witness :
    (paginate pg3 none (some 1)).emails[0]? = pg3[1]?
    ∧ (paginate pg3 (some 2) (some 5)).emails = []
    ∧ (paginate pg3 none (some 1)).limit = pg3.length :=
  ⟨(paginate_spec pg3 none (some 1)).2.2.2.1 0 (by decide),
   (paginate_spec pg3 (some 2) (some 5)).2.2.2.2.1 (by decide),
   (paginate_spec pg3 none (some 1)).2.2.2.2.2 rfl⟩

/-- C10. `limit=0` at the HTTP list interface behaves exactly like an absent
limit (`parseInt('0') || filteredMails.length` falls through to the length):
the full response envelope coincides with the absent-limit one, the echoed
limit equals the filtered total, and the page is all remaining records from
the offset on. -/
theorem limit_zero_spec (filtered : List JsMail) (qo : Option Nat) :
    paginate filtered (some 0) qo = paginate filtered none qo
    ∧ (paginate filtered (some 0) qo).limit = filtered.length
    ∧ (paginate filtered (some 0) qo).emails = filtered.drop (qo.getD 0) := by
  refine ⟨rfl, rfl, ?_⟩
  rw [paginate_emails_eq]
  have ho : (paginate filtered (some 0) qo).offset = qo.getD 0 := by
    cases qo <;> rfl
  have hl : (paginate filtered (some 0) qo).limit = filtered.length := rfl
  rw [ho, hl]
  exact List.take_of_length_le (by simp)

theorem isPrefixOf_iff_exists :
    ∀ (a b : List Char), a.isPrefixOf b = true ↔ ∃ t, b = a ++ t := by
  intro a
  induction a with
  | nil =>
      intro b
      simp [List.isPrefixOf]
  | cons x xs ih =>
      intro b
      cases b with
      | nil =>
          simp [List.isPrefixOf]
      | cons y ys =>
          simp only [List.isPrefixOf, Bool.and_eq_true, beq_iff_eq, ih ys,
            List.cons_append, List.cons.injEq]
          constructor
          · rintro ⟨rfl, t, rfl⟩
            exact ⟨t, rfl, rfl⟩
          · rintro ⟨t, rfl, rfl⟩
            exact ⟨rfl, t, rfl⟩

theorem containsSub_iff (hay needle : List Char) :
    containsSub hay needle = true ↔ ∃ pre post, hay = pre ++ needle ++ post := by
  rw [containsSub, List.any_eq_true]
  constructor
  · rintro ⟨i, hi, hp⟩
    obtain ⟨t, ht⟩ := (isPrefixOf_iff_exists needle (hay.drop i)).mp hp
    refine ⟨hay.take i, t, ?_⟩
    rw [List.append_assoc, ← ht, List.take_append_drop]
  · rintro ⟨pre, post, rfl⟩
    refine ⟨pre.length, ?_, ?_⟩
    · rw [List.mem_range]
      simp only [List.length_append]
      omega
    · rw [List.append_assoc, List.drop_left]
      exact (isPrefixOf_iff_exists needle (needle ++ post)).mpr ⟨post, rfl⟩

theorem ciSubstring_iff (s field : List Char) :
    ciSubstring s field ↔ containsSub (strLower field) (strLower s) = true := by
  rw [ciSubstring, containsSub_iff]

theorem matchesCrit_some (qs field : List Char) :
    matchesCrit (some qs) field ↔ ciSubstring qs field := by
  simp [matchesCrit]

theorem mem_applyFilter (q : Option (List Char)) (field : JsMail → List Char)
    (mails : List JsMail) (m : JsMail) :
    m ∈ applyFilter q field mails ↔ m ∈ mails ∧ matchesCrit q (field m) := by
  cases q with
  | none =>
      simp [applyFilter, matchesCrit]
  | some qs =>
      rw [matchesCrit_some]
      by_cases hqs : qs.isEmpty
      · rw [applyFilter, if_pos hqs]
        have : ciSubstring qs (field m) := by
          rw [List.isEmpty_iff] at hqs
          subst hqs
          exact ⟨strLower (field m), [], by simp [strLower]⟩
        simp [this]
      · rw [applyFilter, if_neg hqs, List.mem_filter, ciSubstring_iff]

theorem applyFilter_sublist (q : Option (List Char)) (field : JsMail → List Char)
    (mails : List JsMail) :
    List.Sublist (applyFilter q field mails) mails := by
  cases q with
  | none => exact List.Sublist.refl mails
  | some qs =>
      by_cases hqs : qs.isEmpty
      · rw [applyFilter, if_pos hqs]
      · rw [applyFilter, if_neg hqs]
        exact List.filter_sublist mails

/-- C5. The `GET /emails` filter chain keeps exactly the records each of whose
`from`/`to`/`subject` fields contains the corresponding supplied criterion as
a case-insensitive substring — criteria conjunctive, absent criteria
unconstraining, original order kept — and a subject criterion matching no
record yields an empty filtered list, hence `total = 0` and an empty page. -/
theorem filter_spec (mails : List JsMail) (qf qt qs : Option (List Char)) :
    (∀ m, m ∈ filterEmails mails qf qt qs ↔
       m ∈ mails ∧ matchesCrit qf m.«from» ∧ matchesCrit qt m.«to»
         ∧ matchesCrit qs m.subject)
    ∧ List.Sublist (filterEmails mails qf qt qs) mails
    ∧ filterEmails mails none none none = mails
    ∧ (∀ s ql qo, (∀ m ∈ mails, ¬ ciSubstring s m.subject) →
         filterEmails mails none none (some s) = []
         ∧ (listEmails mails none none (some s) ql qo).total = 0
         ∧ (listEmails mails none none (some s) ql qo).emails = []) := by
  refine ⟨?_, ?_, rfl, ?_⟩
  · intro m
    rw [filterEmails, mem_applyFilter, mem_applyFilter, mem_applyFilter]
    tauto
  · exact ((applyFilter_sublist qs _ _).trans
      (applyFilter_sublist qt _ _)).trans (applyFilter_sublist qf _ _)
  · intro s ql qo h
    have hnil : filterEmails mails none none (some s) = [] := by
      rw [List.eq_nil_iff_forall_not_mem]
      intro m hm
      rw [filterEmails, mem_applyFilter, mem_applyFilter, mem_applyFilter,
        matchesCrit_some] at hm
      exact h m hm.1.1.1 hm.2
    refine ⟨hnil, ?_, ?_⟩
    · rw [listEmails, hnil]
      rfl
    · rw [listEmails, hnil, paginate_emails_eq]
      simp

/-- C5 witness: filtering the three sample records by the subject substring
`"zzz"` (present in none of them) yields an empty list, `total = 0`, and an
empty page. -/
theorem filter_spec_witness :
    filterEmails pg3 none none (some zzz) = []
    ∧ (listEmails pg3 none none (some zzz) none none).total = 0
    ∧ (listEmails pg3 none none (some zzz) none none).emails = [] :=
  (filter_spec pg3 none none (some zzz)).2.2.2 zzz none none (by
    intro m hm hci
    have hb := (ciSubstring_iff zzz m.subject).mp hci
    simp only [pg3] at hm
    rcases List.mem_cons.mp hm with rfl | hm
    · exact absurd hb (by decide)
    rcases List.mem_cons.mp hm with rfl | hm
    · exact absurd hb (by decide)
    rcases List.mem_cons.mp hm with rfl | hm
    · exact absurd hb (by decide)
    · exact absurd hm (List.not_mem_nil m))

/-- C6. `clear()` empties the store in one step, always appends exactly one
change notification — carrying the (empty) post-clear snapshot — even when
the store was already empty; and the `DELETE /emails` endpoint reports the
pre-clear size as the deleted count, in particular `0` on an empty store. -/
theorem clear_spec (s : Sink) (mails : List JsMail) :
    (sinkClear s).arr = []
    ∧ (sinkClear s).events = s.events ++ [("emails", [])]
    ∧ ((sinkClear s).events).length = s.events.length + 1
    ∧ (clearEndpoint mails).1 = mails.length
    ∧ (clearEndpoint mails).2 = []
    ∧ clearEndpoint [] = (0, []) :=
  ⟨rfl, rfl, by simp [sinkClear], rfl, rfl, rfl⟩

/-- C7. Every push appends exactly one change notification; `remove` appends
exactly one notification when a record was actually removed and none (state
fully unchanged) otherwise; every notification carries the entire current
snapshot tagged with the event name; and `broadcast` delivers that one tagged
message to exactly the open subscribers. -/
theorem notify_spec (max : Nat) (s : Sink) (r : MailRecord) (i : String)
    (clients : List WsClient) (e : String) (d : List MailRecord) :
    ((sinkPush max s r).events = s.events ++ [("emails", (sinkPush max s r).arr)])
    ∧ ((∃ rec ∈ s.arr, rec.id = i) →
        (sinkRemove s i).1 = true
        ∧ ((sinkRemove s i).2).events
            = s.events ++ [("emails", ((sinkRemove s i).2).arr)])
    ∧ ((∀ rec ∈ s.arr, rec.id ≠ i) → sinkRemove s i = (false, s))
    ∧ (∀ c ∈ clients, c.ready = true → (c, e, d) ∈ broadcast clients e d)
    ∧ (∀ x ∈ broadcast clients e d,
        x.2.1 = e ∧ x.2.2 = d ∧ x.1 ∈ clients ∧ x.1.ready = true) := by
  refine ⟨rfl, ?_, ?_, ?_, ?_⟩
  · intro h
    obtain ⟨idx, hidx, hfi, _, _⟩ := findIdx_spec_of_exists s.arr i h
    rw [sinkRemove, hfi]
    exact ⟨rfl, rfl⟩
  · intro h
    rw [sinkRemove, findIdx_none_of_forall s.arr i h]
  · intro c hc hr
    rw [broadcast]
    exact List.mem_map.mpr ⟨c, List.mem_filter.mpr ⟨hc, hr⟩, rfl⟩
  · intro x hx
    rw [broadcast] at hx
    obtain ⟨c, hc, rfl⟩ := List.mem_map.mp hx
    have hcf := List.mem_filter.mp hc
    exact ⟨rfl, rfl, hcf.1, hcf.2⟩

/-- C7 witness: removing the present id `"a"` reports a removal; an open
subscriber receives the tagged snapshot message. -/
theorem notify_spec_witness :
    (sinkRemove ⟨[mr "a"], []⟩ "a").1 = true
    ∧ (⟨0, true⟩, "emails", ([] : List MailRecord))
        ∈ broadcast [⟨0, true⟩] "emails" [] :=
  ⟨((notify_spec 5 ⟨[mr "a"], []⟩ (mr "b") "a" [⟨0, true⟩] "emails" []).2.1
      ⟨mr "a", by decide, rfl⟩).1,
   (notify_spec 5 ⟨[mr "a"], []⟩ (mr "b") "a" [⟨0, true⟩] "emails" []).2.2.2.1
      ⟨0, true⟩ (by decide) rfl⟩

/-- C8. `size() ≤ max` is an invariant: it holds for the fresh store, a push
re-establishes it synchronously (even from an arbitrary pre-state), and
`remove` and `clear` preserve it. -/
theorem capacity_invariant (max : Nat) (s : Sink) (r : MailRecord) (i : String) :
    emptySink.arr.length ≤ max
    ∧ ((sinkPush max s r).arr).length ≤ max
    ∧ (s.arr.length ≤ max → (((sinkRemove s i).2).arr).length ≤ max)
    ∧ ((sinkClear s).arr).length ≤ max := by
  refine ⟨by simp [emptySink], ?_, ?_, by simp [sinkClear]⟩
  · show (rbPush max s.arr r).length ≤ max
    rw [length_rbPush]
    omega
  · intro hle
    rw [sinkRemove]
    cases hfi : s.arr.findIdx? (fun item => item.id == i) with
    | some idx =>
        simp only
        rw [List.length_eraseIdx]
        split <;> omega
    | none => exact hle

/-- C8 witness: a store of one record under capacity 1 stays within capacity
after a (failed) removal. -/
theorem capacity_invariant_witness :
    (((sinkRemove ⟨[mr "a"], []⟩ "b").2).arr).length ≤ 1 :=
  (capacity_invariant 1 ⟨[mr "a"], []⟩ (mr "c") "b").2.2.1 (by decide)

theorem jsRun_ids (max : Nat) :
    ∀ (ops : List JsOp) (s : JsState),
      (jsRun max s ops).2 = List.range' s.counter (countIns ops)
      ∧ (jsRun max s ops).1.counter = s.counter + countIns ops := by
  intro ops
  induction ops with
  | nil => exact fun s => ⟨rfl, rfl⟩
  | cons op ops ih =>
      intro s
      cases op with
      | ins d =>
          have h := ih ⟨s.counter + 1,
            trimFifo max (s.mails ++ [⟨s.counter, d.«from», d.«to», d.subject, d.text, d.raw⟩])⟩
          simp only [jsRun, jsStep]
          constructor
          · rw [h.1, countIns]
            rfl
          · rw [h.2, countIns]
            show s.counter + 1 + countIns ops = s.counter + (countIns ops + 1)
            omega
      | del i =>
          have h := ih ⟨s.counter, (deleteEmail s.mails i).2⟩
          exact ⟨h.1, h.2⟩
      | clr =>
          have h := ih ⟨s.counter, []⟩
          exact ⟨h.1, h.2⟩

theorem digitChar_toNat (d : Nat) (h : d < 10) : (digitChar d).toNat = 48 + d := by
  have hv : (48 + d).isValidChar := by
    left
    omega
  rw [digitChar, Char.ofNat, dif_pos hv]
  rfl

theorem digitChar_inj (a b : Nat) (ha : a < 10) (hb : b < 10)
    (h : digitChar a = digitChar b) : a = b := by
  have := congrArg Char.toNat h
  rw [digitChar_toNat a ha, digitChar_toNat b hb] at this
  omega

theorem digitChar_ne_dash (d : Nat) (h : d < 10) : digitChar d ≠ '-' := by
  intro he
  have := digitChar_toNat d h
  rw [he] at this
  have hdash : ('-').toNat = 45 := rfl
  omega

theorem dash_not_mem_natDecimal (n : Nat) : '-' ∉ natDecimal n := by
  rw [natDecimal]
  split
  · decide
  · intro hmem
    rw [List.mem_reverse, List.mem_map] at hmem
    obtain ⟨d, hd, hde⟩ := hmem
    exact digitChar_ne_dash d (Nat.digits_lt_base (by omega) hd) hde

theorem map_digitChar_inj :
    ∀ (l1 l2 : List Nat), (∀ d ∈ l1, d < 10) → (∀ d ∈ l2, d < 10) →
      l1.map digitChar = l2.map digitChar → l1 = l2 := by
  intro l1
  induction l1 with
  | nil =>
      intro l2 _ _ h
      cases l2 with
      | nil => rfl
      | cons b bs => simp at h
  | cons a as ih =>
      intro l2 h1 h2 h
      cases l2 with
      | nil => simp at h
      | cons b bs =>
          simp only [List.map_cons, List.cons.injEq] at h
          have hab : a = b :=
            digitChar_inj a b (h1 a (by simp)) (h2 b (by simp)) h.1
          have htl : as = bs :=
            ih bs (fun d hd => h1 d (by simp [hd])) (fun d hd => h2 d (by simp [hd])) h.2
          rw [hab, htl]

theorem natDecimal_inj (n m : Nat) (h : natDecimal n = natDecimal m) : n = m := by
  by_cases hn : n = 0 <;> by_cases hm : m = 0
  · omega
  · rw [natDecimal, if_pos hn, natDecimal, if_neg hm] at h
    have hrev : (Nat.digits 10 m).map digitChar = ['0'] := by
      have := congrArg List.reverse h
      simpa using this.symm
    have hlen : (Nat.digits 10 m).length = 1 := by
      have := congrArg List.length hrev
      simpa using this
    obtain ⟨d, hd⟩ := List.length_eq_one.mp hlen
    rw [hd] at hrev
    simp only [List.map_cons, List.map_nil, List.cons.injEq] at hrev
    have hd10 : d < 10 := Nat.digits_lt_base (by omega) (by rw [hd]; simp)
    have hd0 : d = 0 := digitChar_inj d 0 hd10 (by omega) (by rw [hrev.1]; rfl)
    have := Nat.ofDigits_digits 10 m
    rw [hd, hd0] at this
    simp [Nat.ofDigits] at this
    omega
  · rw [natDecimal, if_neg hn, natDecimal, if_pos hm] at h
    have hrev : (Nat.digits 10 n).map digitChar = ['0'] := by
      have := congrArg List.reverse h
      simpa using this
    have hlen : (Nat.digits 10 n).length = 1 := by
      have := congrArg List.length hrev
      simpa using this
    obtain ⟨d, hd⟩ := List.length_eq_one.mp hlen
    rw [hd] at hrev
    simp only [List.map_cons, List.map_nil, List.cons.injEq] at hrev
    have hd10 : d < 10 := Nat.digits_lt_base (by omega) (by rw [hd]; simp)
    have hd0 : d = 0 := digitChar_inj d 0 hd10 (by omega) (by rw [hrev.1]; rfl)
    have := Nat.ofDigits_digits 10 n
    rw [hd, hd0] at this
    simp [Nat.ofDigits] at this
    omega
  · rw [natDecimal, if_neg hn, natDecimal, if_neg hm] at h
    have hrev := congrArg List.reverse h
    simp only [List.reverse_reverse] at hrev
    have hdig : Nat.digits 10 n = Nat.digits 10 m :=
      map_digitChar_inj _ _
        (fun d hd => Nat.digits_lt_base (by omega) hd)
        (fun d hd => Nat.digits_lt_base (by omega) hd) hrev
    have h1 := Nat.ofDigits_digits 10 n
    have h2 := Nat.ofDigits_digits 10 m
    rw [← h1, ← h2, hdig]

theorem append_dash_inj :
    ∀ (a b r1 r2 : List Char), '-' ∉ a → '-' ∉ b →
      a ++ '-' :: r1 = b ++ '-' :: r2 → a = b ∧ r1 = r2 := by
  intro a
  induction a with
  | nil =>
      intro b r1 r2 _ hb h
      cases b with
      | nil =>
          simp only [List.nil_append, List.cons.injEq] at h
          exact ⟨rfl, h.2⟩
      | cons y ys =>
          simp only [List.nil_append, List.cons_append, List.cons.injEq] at h
          exact absurd (by rw [h.1]; simp : '-' ∈ y :: ys) hb
  | cons x xs ih =>
      intro b r1 r2 ha hb h
      cases b with
      | nil =>
          simp only [List.cons_append, List.nil_append, List.cons.injEq] at h
          exact absurd (by rw [← h.1]; simp : '-' ∈ x :: xs) ha
      | cons y ys =>
          simp only [List.cons_append, List.cons.injEq] at h
          have hxs : '-' ∉ xs := fun hc => ha (by simp [hc])
          have hys : '-' ∉ ys := fun hc => hb (by simp [hc])
          obtain ⟨he, ht⟩ := ih ys r1 r2 hxs hys h.2
          exact ⟨by rw [h.1, he], ht⟩

theorem mkTimeId_inj (t1 : Nat) (r1 : List Char) (t2 : Nat) (r2 : List Char) :
    mkTimeId t1 r1 = mkTimeId t2 r2 ↔ t1 = t2 ∧ r1 = r2 := by
  constructor
  · intro h
    rw [mkTimeId, mkTimeId] at h
    obtain ⟨he, ht⟩ := append_dash_inj _ _ _ _
      (dash_not_mem_natDecimal t1) (dash_not_mem_natDecimal t2) h
    exact ⟨natDecimal_inj t1 t2 he, ht⟩
  · rintro ⟨rfl, rfl⟩
    rfl

/-- C2 counterexample: the time-based id scheme of `src/src/index.ts` has no
same-instant guard — two insertions at the same `Date.now()` reading whose
`Math.random()` tokens coincide are assigned the very same id, so the ids of
the two records are not pairwise distinct. -/
theorem sameInstant_id_collision :
    mkTimeId 1700000000000 ['k', '2', 'j']
      = mkTimeId 1700000000000 ['k', '2', 'j']
    ∧ ¬ ([mkTimeId 1700000000000 ['k', '2', 'j'],
          mkTimeId 1700000000000 ['k', '2', 'j']].Nodup) :=
  ⟨rfl, fun h => (List.nodup_cons.mp h).1 (List.mem_singleton.mpr rfl)⟩

/-- C2 amended: under the sequential-counter scheme of `index.js` the ids
assigned across an entire process lifetime — through evictions, deletions and
clears, and independent of record content — are pairwise distinct; under the
time-based scheme of `src/src/index.ts` two insertions receive distinct ids
exactly when their clock reading or their random token differs (there is no
further guard for same-instant, same-token draws). -/
theorem id_uniqueness_amended :
    (∀ (max : Nat) (ops : List JsOp), ((jsRun max ⟨0, []⟩ ops).2).Nodup)
    ∧ (∀ (t1 : Nat) (r1 : List Char) (t2 : Nat) (r2 : List Char),
        mkTimeId t1 r1 = mkTimeId t2 r2 ↔ t1 = t2 ∧ r1 = r2) := by
  constructor
  · intro max ops
    rw [(jsRun_ids max ops ⟨0, []⟩).1]
    exact List.nodup_range' _ _
  · exact mkTimeId_inj

theorem applyMut_preserved (h : JsHeap) (a : Nat) (op : MutOp)
    (hwa : a < h.cells.length) (hwr : h.arrRef < h.cells.length)
    (hne : h.arrRef ≠ a) :
    (applyMut h op).cells[a]? = h.cells[a]?
    ∧ a < (applyMut h op).cells.length
    ∧ (applyMut h op).arrRef < (applyMut h op).cells.length
    ∧ (applyMut h op).arrRef ≠ a := by
  cases op with
  | pushOp max r =>
      refine ⟨List.getElem?_set_ne hne, ?_, ?_, hne⟩
      · show a < (h.cells.set h.arrRef _).length
        rw [List.length_set]
        exact hwa
      · show h.arrRef < (h.cells.set h.arrRef _).length
        rw [List.length_set]
        exact hwr
  | removeOp i =>
      refine ⟨List.getElem?_set_ne hne, ?_, ?_, hne⟩
      · show a < (h.cells.set h.arrRef _).length
        rw [List.length_set]
        exact hwa
      · show h.arrRef < (h.cells.set h.arrRef _).length
        rw [List.length_set]
        exact hwr
  | clearOp =>
      refine ⟨List.getElem?_append_left hwa, ?_, ?_, ?_⟩
      · show a < (h.cells ++ [[]]).length
        rw [List.length_append]
        omega
      · show h.cells.length < (h.cells ++ [[]]).length
        rw [List.length_append]
        simp
      · show h.cells.length ≠ a
        omega

theorem runMut_cell_frozen (a : Nat) :
    ∀ (ops : List MutOp) (h : JsHeap), a < h.cells.length →
      h.arrRef < h.cells.length → h.arrRef ≠ a →
      (runMut h ops).cells[a]? = h.cells[a]? := by
  intro ops
  induction ops with
  | nil =>
      intro h _ _ _
      rfl
  | cons op ops ih =>
      intro h hwa hwr hne
      obtain ⟨hcell, hwa', hwr', hne'⟩ := applyMut_preserved h a op hwa hwr hne
      rw [runMut, ih (applyMut h op) hwa' hwr' hne', hcell]

/-- C9. `toArray()` copies the current sequence into a fresh cell: the store's
array and every existing cell are untouched by taking a snapshot, the
snapshot cell holds exactly the sequence at snapshot time, and no subsequent
`push`, `remove`, or `clear` — in any number and order — ever alters the
snapshot cell. -/
theorem snapshot_independent (h : JsHeap) (hwf : h.arrRef < h.cells.length) :
    ((heapSnapshot h).1).arrRef = h.arrRef
    ∧ curArr (heapSnapshot h).1 = curArr h
    ∧ (∀ i, i < h.cells.length → ((heapSnapshot h).1).cells[i]? = h.cells[i]?)
    ∧ ((heapSnapshot h).1).cells[(heapSnapshot h).2]? = some (curArr h)
    ∧ (∀ ops : List MutOp,
        (runMut (heapSnapshot h).1 ops).cells[(heapSnapshot h).2]?
          = some (curArr h)) := by
  have hcell : ((heapSnapshot h).1).cells[(heapSnapshot h).2]? = some (curArr h) :=
    List.getElem?_concat_length h.cells (curArr h)
  refine ⟨rfl, ?_, ?_, hcell, ?_⟩
  · show (h.cells ++ [curArr h]).getD h.arrRef [] = h.cells.getD h.arrRef []
    rw [List.getD_eq_getElem?_getD, List.getD_eq_getElem?_getD,
      List.getElem?_append_left hwf]
  · intro i hi
    exact List.getElem?_append_left hi
  · intro ops
    have hfroz := runMut_cell_frozen (heapSnapshot h).2 ops (heapSnapshot h).1
      (by show h.cells.length < (h.cells ++ [curArr h]).length; simp)
      (by show h.arrRef < (h.cells ++ [curArr h]).length; rw [List.length_append]; omega)
      (by show h.arrRef ≠ h.cells.length; omega)
    rw [hfroz, hcell]

/-- C9 witness: the snapshot of a fresh store survives a push and a clear
unchanged. -/
theorem snapshot_independent_witness :
    (runMut (heapSnapshot emptyHeap).1
        [MutOp.pushOp 3 (mr "a"), MutOp.clearOp]).cells[(heapSnapshot emptyHeap).2]?
      = some (curArr emptyHeap) :=
  (snapshot_independent emptyHeap (by decide)).2.2.2.2
    [MutOp.pushOp 3 (mr "a"), MutOp.clearOp]

end SmtpSink
